import Mathlib

/-!
# Verification of the crowsnest-connector-cluon point-cloud pipeline

Shallow embedding of `lidar_utils.py` and `main.py`:

* the geometry kernel (`sph2cart`, the handedness flip and the range filter
  inside `get_points`),
* the revolution decoder (`point_cloud_reading_extractor`), including the
  numpy behaviours it relies on (`np.frombuffer` with dtype `>u2`,
  `np.meshgrid(..).flatten()`, broadcasting of elementwise products,
  `np.linspace`, `np.deg2rad`),
* the stream plumbing from `main.py`: the `combine_latest(..., emit_on=pcd)`
  join, and the `.latest().rate_limit(0.5)` tail of `pcd_extractor`
  (timed, with rational time stamps),
* `transform_coords` (scipy `Rotation.from_euler("zyx", ..., degrees=True)`).

Real-valued data is modelled with `ℝ`; byte buffers with `List ℕ`
(one entry per byte); wall-clock times with `ℚ`.
-/

open Real

/-- A 3-D point, as one row of the `(n, 3)` array built by `get_points`. -/
abbrev Point : Type := ℝ × ℝ × ℝ

/-- `VERTICAL_ANGLES_16` from `lidar_utils.py`: the fixed elevation table in
degrees. -/
noncomputable def VERTICAL_ANGLES_16 : List ℝ :=
  [-15.0, -13.0, -11.0, -9.0, -7.0, -5.0, -3.0, -1.0,
    1.0, 3.0, 5.0, 7.0, 9.0, 11.0, 13.0, 15.0]

/-- `np.deg2rad`: multiply by `π / 180`. -/
noncomputable def deg2rad (x : ℝ) : ℝ := x * (Real.pi / 180)

/-- Row-major flattening of the first component of
`np.meshgrid(elevations, azimuths)`: with default `indexing="xy"` the result
has shape `(|azimuths|, |elevations|)` and entry `(i, j)` equal to
`elevations[j]`, so `els.flatten()` is `elevations` repeated once per
azimuth. -/
def meshEls : List ℝ → List ℝ → List ℝ
  | [], _ => []
  | _ :: as, els => els ++ meshEls as els

/-- Row-major flattening of the second component of
`np.meshgrid(elevations, azimuths)`: entry `(i, j)` is `azimuths[i]`, so
`azs.flatten()` repeats each azimuth once per elevation. -/
def meshAzs : List ℝ → List ℝ → List ℝ
  | [], _ => []
  | a :: as, els => els.map (fun _ => a) ++ meshAzs as els

/-- Elementwise product of two 1-D numpy arrays with broadcasting: defined
when the lengths agree or one of them is `1`; otherwise numpy raises a
`ValueError` (modelled as `none`). -/
noncomputable def bmul (xs ys : List ℝ) : Option (List ℝ) :=
  if xs.length = ys.length then some (List.zipWith (fun a b => a * b) xs ys)
  else if xs.length = 1 then some (ys.map (fun y => xs.headI * y))
  else if ys.length = 1 then some (xs.map (fun x => x * ys.headI))
  else none

/-- `sph2cart` from `lidar_utils.py`:

    els, azs = np.meshgrid(elevations, azimuths)
    x_coords = distances * np.cos(els.flatten()) * np.cos(azs.flatten())
    y_coords = distances * np.cos(els.flatten()) * np.sin(azs.flatten())
    z_coords = distances * np.sin(els.flatten())

`none` models a raised broadcasting error. -/
noncomputable def sph2cart (azimuths elevations distances : List ℝ) :
    Option (List ℝ × List ℝ × List ℝ) :=
  let cosEls := (meshEls azimuths elevations).map Real.cos
  let sinEls := (meshEls azimuths elevations).map Real.sin
  let cosAzs := (meshAzs azimuths elevations).map Real.cos
  let sinAzs := (meshAzs azimuths elevations).map Real.sin
  match bmul distances cosEls with
  | none => none
  | some dce =>
    match bmul dce cosAzs, bmul dce sinAzs, bmul distances sinEls with
    | some x, some y, some z => some (x, y, z)
    | _, _, _ => none

/-- Decode a byte buffer as big-endian unsigned 16-bit integers
(`np.frombuffer(binary_distances, dtype=">u2")`); callers must check the
length is even first (numpy raises otherwise). -/
def u16pairs : List ℕ → List ℕ
  | b1 :: b2 :: rest => (256 * b1 + b2) :: u16pairs rest
  | _ => []

/-- `np.linalg.norm(p)` for one row: the Euclidean norm. -/
noncomputable def pnorm (p : Point) : ℝ :=
  Real.sqrt (p.1 ^ 2 + p.2.1 ^ 2 + p.2.2 ^ 2)

/-- The range filter condition of `get_points`:
`np.logical_and(norms >= 0.5, norms <= 200)`. -/
noncomputable def keepPoint (p : Point) : Bool :=
  @decide (0.5 ≤ pnorm p ∧ pnorm p ≤ 200) (Classical.propDecidable _)

/-- `np.column_stack([x, y, z])` for three 1-D arrays of equal length. -/
def stack3 : List ℝ → List ℝ → List ℝ → List Point
  | x :: xs, y :: ys, z :: zs => (x, y, z) :: stack3 xs ys zs
  | _, _, _ => []

/-- The candidate points built inside `get_points` before filtering:
`np.column_stack([x_coords, -y_coords, z_coords])`. -/
noncomputable def candidatePoints (azimuths elevations distances : List ℝ) :
    Option (List Point) :=
  match sph2cart azimuths elevations distances with
  | none => none
  | some (x, y, z) => some (stack3 x (y.map (fun v => -v)) z)

/-- `get_points` from `lidar_utils.py`: decode the byte buffer as `>u2`
(raising when the length is odd), scale by `1/100` to meters, convert to
Cartesian coordinates, and keep the points whose norm lies in
`[0.5, 200]`. -/
noncomputable def get_points (azimuths elevations : List ℝ)
    (binary : List ℕ) : Option (List Point) :=
  if binary.length % 2 = 0 then
    match candidatePoints azimuths elevations
        ((u16pairs binary).map (fun (n : ℕ) => (n : ℝ) / 100)) with
    | none => none
    | some pts => some (pts.filter keepPoint)
  else none

/-- `get_number_of_points` from `lidar_utils.py`: `len(distances) / 2`
(Python true division, hence a rational value). -/
def get_number_of_points (distances : List ℕ) : ℚ :=
  (distances.length : ℚ) / 2

/-- `get_number_of_azimuths` from `lidar_utils.py`:
`number_of_points / entries_per_azimuth` (true division). The `entries = 0`
case (Python `ZeroDivisionError`) is handled by the caller. -/
def get_number_of_azimuths (numberOfPoints : ℚ) (entriesPerAzimuth : ℕ) : ℚ :=
  numberOfPoints / (entriesPerAzimuth : ℚ)

/-- `np.linspace(start, stop, num, endpoint=True)`. -/
noncomputable def linspace (start stop : ℝ) (num : ℕ) : List ℝ :=
  if num = 0 then []
  else if num = 1 then [start]
  else (List.range num).map
    (fun (i : ℕ) => start + (i : ℝ) * ((stop - start) / ((num : ℝ) - 1)))

/-- The fields of one `opendlv_proxy_PointCloudReading` envelope used by
`point_cloud_reading_extractor`. -/
structure PointCloudReading where
  startAzimuth : ℝ
  endAzimuth : ℝ
  entriesPerAzimuth : ℕ
  distances : List ℕ

/-- The accumulation loop of `point_cloud_reading_extractor`: per slice,
skip when `distances` is empty, otherwise append
`np.linspace(start, end, int(n_azimuths))` to the azimuth accumulator and the
raw bytes to the byte accumulator. `int` truncates toward zero, i.e. takes
the floor of the non-negative ratio. `none` models the `ZeroDivisionError`
raised when `entriesPerAzimuth = 0`. -/
noncomputable def accumSlices (acc : List ℝ × List ℕ) :
    List PointCloudReading → Option (List ℝ × List ℕ)
  | [] => some acc
  | e :: rest =>
    if e.distances = [] then accumSlices acc rest
    else if e.entriesPerAzimuth = 0 then none
    else
      accumSlices
        (acc.1 ++ linspace e.startAzimuth e.endAzimuth
            (⌊get_number_of_azimuths (get_number_of_points e.distances)
                e.entriesPerAzimuth⌋₊),
          acc.2 ++ e.distances) rest

/-- `point_cloud_reading_extractor` from `main.py`: accumulate all slices of
one revolution, run `get_points` on the accumulated azimuths (in radians),
the fixed elevation table (in radians) and the accumulated bytes, and return
`None` when nothing survives or any exception was raised. -/
noncomputable def point_cloud_reading_extractor
    (envelopes : List PointCloudReading) : Option (List Point) :=
  match accumSlices ([], []) envelopes with
  | none => none
  | some (azs, bin) =>
    match get_points (azs.map deg2rad) (VERTICAL_ANGLES_16.map deg2rad) bin with
    | none => none
    | some pts => if pts.isEmpty then none else some pts

/-- The revolution-level view of
`pcd_source.partition(K).map(point_cloud_reading_extractor).filter(x -> x is not None)`:
each revolution contributes its decoded cloud iff one was produced. -/
noncomputable def pipelineOutputs (revs : List (List PointCloudReading)) :
    List (List Point) :=
  revs.filterMap point_cloud_reading_extractor

/-- Rotation about the z axis by `t` radians, acting on a row vector as
scipy's `Rotation.from_euler("z", t).apply` does. -/
noncomputable def rotZ (t : ℝ) (p : Point) : Point :=
  (Real.cos t * p.1 - Real.sin t * p.2.1,
   Real.sin t * p.1 + Real.cos t * p.2.1, p.2.2)

/-- Rotation about the y axis by `t` radians. -/
noncomputable def rotY (t : ℝ) (p : Point) : Point :=
  (Real.cos t * p.1 + Real.sin t * p.2.2, p.2.1,
   -Real.sin t * p.1 + Real.cos t * p.2.2)

/-- Rotation about the x axis by `t` radians. -/
noncomputable def rotX (t : ℝ) (p : Point) : Point :=
  (p.1, Real.cos t * p.2.1 - Real.sin t * p.2.2,
   Real.sin t * p.2.1 + Real.cos t * p.2.2)

/-- `Rotation.from_euler("zyx", [tz, ty, tx], degrees=True).apply(p)`:
lowercase `"zyx"` is an extrinsic sequence, so the z rotation is applied
first, then y, then x, with each angle converted from degrees to radians. -/
noncomputable def applyRot (tz ty tx : ℝ) (p : Point) : Point :=
  rotX (deg2rad tx) (rotY (deg2rad ty) (rotZ (deg2rad tz) p))

/-- `transform_coords` from `main.py`, with the three mount offsets
`CLUON_SENSOR_ORIENTATION_Z/Y/X` passed explicitly: rotate every point by
the Euler sequence `"zyx"` with angles `[hdg + oz, oy, ox]` degrees, and
pass the position through. -/
noncomputable def transform_coords (oz oy ox : ℝ)
    (data : (ℝ × ℝ) × ℝ × List Point) : (ℝ × ℝ) × List Point :=
  (data.1, data.2.2.map (fun p => applyRot (data.2.1 + oz) oy ox p))

/-! ## The latest-value join

`combined = combine_latest(pos_extractor, hdg_extractor, pcd_extractor,
emit_on=pcd_extractor)` from `main.py`: streamz's `combine_latest` stores the
most recent value of every upstream and, because of `emit_on`, emits the
stored tuple exactly when the point-cloud stream updates and every slot has
been filled at least once. -/

/-- One inbound event of the join: a position fix, a heading fix, or a
decoded point cloud. -/
inductive JoinEvent where
  | posEv (p : ℝ × ℝ)
  | hdgEv (h : ℝ)
  | pcdEv (pc : List Point)

/-- The slots of `combine_latest`: the latest value seen on each upstream,
`none` while that upstream has not produced yet. -/
structure JoinState where
  pos : Option (ℝ × ℝ)
  hdg : Option ℝ
  pc : Option (List Point)

/-- The empty join state at pipeline start. -/
def joinInit : JoinState := ⟨none, none, none⟩

/-- One step of `combine_latest(..., emit_on=pcd_extractor)`: store the
arriving value; emit the combined tuple only on a point-cloud arrival and
only when no slot is missing. -/
def joinStep (s : JoinState) :
    JoinEvent → JoinState × Option ((ℝ × ℝ) × ℝ × List Point)
  | .posEv p => ({ s with pos := some p }, none)
  | .hdgEv h => ({ s with hdg := some h }, none)
  | .pcdEv c =>
    match s.pos, s.hdg with
    | some p, some h => ({ s with pc := some c }, some (p, h, c))
    | _, _ => ({ s with pc := some c }, none)

/-- Fold the join over a list of events, keeping only the state. -/
def joinRun (s : JoinState) (events : List JoinEvent) : JoinState :=
  events.foldl (fun s e => (joinStep s e).1) s

/-! ## The rate-limited tail `.latest().rate_limit(0.5)`

streamz's `rate_limit(interval)` keeps a schedule time `next`; an item handed
to it at time `t` is emitted at `e = max t next` (sleeping until `old_next`
when `t < old_next`) and `next` becomes `e + interval`. The preceding
`.latest()` node hands an arriving item downstream immediately when its
emit loop is idle, and otherwise keeps only the newest arrival in a
one-element buffer, handing it over when the loop next frees.
`main.py` instantiates the interval at `0.5` (seconds).

The machine below folds over arrivals `(t, frame)` with non-decreasing
times. `next` is the limiter's schedule, `freeAt` the time the `latest`
loop becomes idle again, `pending` the buffered frame (if any). -/

/-- State of the `.latest().rate_limit(I)` tail. -/
structure RLState (α : Type) where
  next : ℚ
  freeAt : ℚ
  pending : Option α

/-- Initial state: nothing pending, first item emitted at its arrival. -/
def rlInit {α : Type} : RLState α := ⟨0, 0, none⟩

/-- One arrival `(t, f)`. First, if a buffered frame exists and the loop
freed before `t`, it was handed over at `freeAt` and emitted at
`max freeAt next`. Then `f` itself is either handed over at `t` (loop idle)
and emitted at `max t next`, or buffered, replacing any pending frame. -/
def rlStep {α : Type} (I : ℚ) (s : RLState α) (t : ℚ) (f : α) :
    RLState α × List (ℚ × α) :=
  let s1 : RLState α × List (ℚ × α) :=
    match s.pending with
    | some g =>
      if s.freeAt ≤ t then
        (⟨max s.freeAt s.next + I, max s.freeAt s.next, none⟩,
          [(max s.freeAt s.next, g)])
      else (s, [])
    | none => (s, [])
  if s1.1.freeAt ≤ t then
    (⟨max t s1.1.next + I, max t s1.1.next, none⟩,
      s1.2 ++ [(max t s1.1.next, f)])
  else
    (⟨s1.1.next, s1.1.freeAt, some f⟩, s1.2)

/-- Fold `rlStep` over a list of arrivals, collecting the emissions. -/
def rlRun {α : Type} (I : ℚ) (s : RLState α) :
    List (ℚ × α) → RLState α × List (ℚ × α)
  | [] => (s, [])
  | (t, f) :: rest =>
    let st := rlStep I s t f
    let rst := rlRun I st.1 rest
    (rst.1, st.2 ++ rst.2)

/-- After the last arrival, a still-buffered frame is handed over when the
loop frees and emitted at `max freeAt next`. -/
def rlFinish {α : Type} (I : ℚ) (s : RLState α) : List (ℚ × α) :=
  match s.pending with
  | some g => [(max s.freeAt s.next, g)]
  | none => []

/-- All emissions of `.latest().rate_limit(I)` on a full arrival trace:
each element is `(emission time, frame)`. -/
def rateLimitEmissions {α : Type} (I : ℚ) (arrivals : List (ℚ × α)) :
    List (ℚ × α) :=
  (rlRun I rlInit arrivals).2 ++ rlFinish I (rlRun I rlInit arrivals).1

/-- The byte buffer of the spec's example scenario: 16 big-endian `uint16`
samples, each `0x03E8 = 1000` (10.00 m after scaling). -/
def b32 : List ℕ :=
  [3, 232, 3, 232, 3, 232, 3, 232, 3, 232, 3, 232, 3, 232, 3, 232,
   3, 232, 3, 232, 3, 232, 3, 232, 3, 232, 3, 232, 3, 232, 3, 232]

/-- The decoded cloud of the example scenario: one point per
`VERTICAL_ANGLES_16` entry, at azimuth `0` and radius `10`. -/
noncomputable def scenarioPoints : List Point :=
  VERTICAL_ANGLES_16.map
    (fun v => ((10 : ℝ) * Real.cos (deg2rad v), 0, 10 * Real.sin (deg2rad v)))

/-! ## Basic length and indexing lemmas for the geometry kernel -/

theorem meshEls_length (as els : List ℝ) :
    (meshEls as els).length = as.length * els.length := by
  induction as with
  | nil => simp [meshEls]
  | cons a as ih => simp [meshEls, ih, Nat.succ_mul, Nat.add_comm]

theorem meshAzs_length (as els : List ℝ) :
    (meshAzs as els).length = as.length * els.length := by
  induction as with
  | nil => simp [meshAzs]
  | cons a as ih => simp [meshAzs, ih, Nat.succ_mul, Nat.add_comm]

theorem u16pairs_length : ∀ b : List ℕ, (u16pairs b).length = b.length / 2
  | [] => by simp [u16pairs]
  | [_] => by simp [u16pairs]
  | _ :: _ :: rest => by
    simp only [u16pairs, List.length_cons]
    rw [u16pairs_length rest]
    omega

theorem linspace_length (s t : ℝ) (n : ℕ) : (linspace s t n).length = n := by
  unfold linspace
  split_ifs with h1 h2
  · simp [h1]
  · simp [h2]
  · rw [List.length_map, List.length_range]

theorem stack3_length : ∀ (x y z : List ℝ),
    x.length = y.length → y.length = z.length →
    (stack3 x y z).length = x.length
  | [], [], _, _, _ => by simp [stack3]
  | [], _ :: _, _, h, _ => by simp at h
  | _ :: _, [], _, h, _ => by simp at h
  | _ :: _, _ :: _, [], _, h => by simp at h
  | a :: x, b :: y, c :: z, hxy, hyz => by
    simp only [stack3, List.length_cons]
    rw [stack3_length x y z (by simpa using hxy) (by simpa using hyz)]

theorem meshEls_getElem (as els : List ℝ) (i j : ℕ)
    (hi : i < as.length) (hj : j < els.length) :
    (meshEls as els)[i * els.length + j]? = els[j]? := by
  induction as generalizing i with
  | nil => simp at hi
  | cons a as ih =>
    cases i with
    | zero =>
      simp only [meshEls, Nat.zero_mul, Nat.zero_add, List.getElem?_append]
      rw [if_pos hj]
    | succ i =>
      have hidx : (i + 1) * els.length + j
          = els.length + (i * els.length + j) := by ring
      rw [show meshEls (a :: as) els = els ++ meshEls as els from rfl, hidx,
        List.getElem?_append]
      rw [if_neg (by omega)]
      have : els.length + (i * els.length + j) - els.length
          = i * els.length + j := by omega
      rw [this]
      exact ih i (by simpa using hi)

theorem meshAzs_getElem (as els : List ℝ) (i j : ℕ) (ai : ℝ)
    (hi : as[i]? = some ai) (hj : j < els.length) :
    (meshAzs as els)[i * els.length + j]? = some ai := by
  induction as generalizing i with
  | nil => simp at hi
  | cons a as ih =>
    cases i with
    | zero =>
      simp only [List.getElem?_cons_zero, Option.some.injEq] at hi
      subst hi
      simp only [meshAzs, Nat.zero_mul, Nat.zero_add, List.getElem?_append]
      rw [if_pos (by simpa using hj)]
      rw [List.getElem?_map, List.getElem?_eq_getElem hj]
      rfl
    | succ i =>
      have hidx : (i + 1) * els.length + j
          = els.length + (i * els.length + j) := by ring
      rw [show meshAzs (a :: as) els = els.map (fun _ => a) ++ meshAzs as els
          from rfl, hidx, List.getElem?_append]
      rw [if_neg (by simp only [List.length_map]; omega)]
      have : els.length + (i * els.length + j) - (els.map (fun _ => a)).length
          = i * els.length + j := by simp only [List.length_map]; omega
      rw [this]
      exact ih i (by simpa using hi)

theorem zipWith_getElem (f : ℝ → ℝ → ℝ) :
    ∀ (xs ys : List ℝ) (k : ℕ) (a b : ℝ),
      xs[k]? = some a → ys[k]? = some b →
      (List.zipWith f xs ys)[k]? = some (f a b)
  | [], _, k, _, _, ha, _ => by simp at ha
  | _ :: _, [], k, _, _, _, hb => by simp at hb
  | x :: xs, y :: ys, 0, a, b, ha, hb => by
    simp only [List.getElem?_cons_zero, Option.some.injEq] at ha hb
    subst ha; subst hb
    simp
  | x :: xs, y :: ys, k + 1, a, b, ha, hb => by
    simp only [List.getElem?_cons_succ] at ha hb
    simp only [List.zipWith_cons_cons, List.getElem?_cons_succ]
    exact zipWith_getElem f xs ys k a b ha hb

theorem stack3_getElem : ∀ (x y z : List ℝ) (k : ℕ) (a b c : ℝ),
    x[k]? = some a → y[k]? = some b → z[k]? = some c →
    (stack3 x y z)[k]? = some (a, b, c)
  | [], _, _, k, _, _, _, ha, _, _ => by simp at ha
  | _ :: _, [], _, k, _, _, _, _, hb, _ => by simp at hb
  | _ :: _, _ :: _, [], k, _, _, _, _, _, hc => by simp at hc
  | x :: xs, y :: ys, z :: zs, 0, a, b, c, ha, hb, hc => by
    simp only [List.getElem?_cons_zero, Option.some.injEq] at ha hb hc
    subst ha; subst hb; subst hc
    simp [stack3]
  | x :: xs, y :: ys, z :: zs, k + 1, a, b, c, ha, hb, hc => by
    simp only [List.getElem?_cons_succ] at ha hb hc
    simp only [stack3, List.getElem?_cons_succ]
    exact stack3_getElem xs ys zs k a b c ha hb hc

theorem bmul_eq_zipWith (xs ys : List ℝ) (h : xs.length = ys.length) :
    bmul xs ys = some (List.zipWith (fun a b => a * b) xs ys) := by
  simp [bmul, h]

/-! ## Characterisation of the candidate points (before filtering) -/

theorem sph2cart_eq (as els d : List ℝ)
    (hlen : d.length = as.length * els.length) :
    sph2cart as els d = some
      (List.zipWith (fun a b => a * b)
          (List.zipWith (fun a b => a * b) d ((meshEls as els).map Real.cos))
          ((meshAzs as els).map Real.cos),
        List.zipWith (fun a b => a * b)
          (List.zipWith (fun a b => a * b) d ((meshEls as els).map Real.cos))
          ((meshAzs as els).map Real.sin),
        List.zipWith (fun a b => a * b) d ((meshEls as els).map Real.sin)) := by
  have hce : d.length = ((meshEls as els).map Real.cos).length := by
    simp [meshEls_length, hlen]
  have hse : d.length = ((meshEls as els).map Real.sin).length := by
    simp [meshEls_length, hlen]
  have hdce : (List.zipWith (fun a b => a * b) d
      ((meshEls as els).map Real.cos)).length
      = ((meshAzs as els).map Real.cos).length := by
    simp [List.length_zipWith, meshEls_length, meshAzs_length, hlen]
  have hdse : (List.zipWith (fun a b => a * b) d
      ((meshEls as els).map Real.cos)).length
      = ((meshAzs as els).map Real.sin).length := by
    simp [List.length_zipWith, meshEls_length, meshAzs_length, hlen]
  simp only [sph2cart, bmul_eq_zipWith _ _ hce, bmul_eq_zipWith _ _ hdce,
    bmul_eq_zipWith _ _ hdse, bmul_eq_zipWith _ _ hse]

theorem candidatePoints_eq (as els d : List ℝ)
    (hlen : d.length = as.length * els.length) :
    candidatePoints as els d = some
      (stack3
        (List.zipWith (fun a b => a * b)
          (List.zipWith (fun a b => a * b) d ((meshEls as els).map Real.cos))
          ((meshAzs as els).map Real.cos))
        ((List.zipWith (fun a b => a * b)
          (List.zipWith (fun a b => a * b) d ((meshEls as els).map Real.cos))
          ((meshAzs as els).map Real.sin)).map (fun v => -v))
        (List.zipWith (fun a b => a * b) d ((meshEls as els).map Real.sin))) := by
  rw [candidatePoints, sph2cart_eq as els d hlen]

theorem candidatePoints_length (as els d : List ℝ) (pts : List Point)
    (hlen : d.length = as.length * els.length)
    (hpts : candidatePoints as els d = some pts) :
    pts.length = d.length := by
  rw [candidatePoints_eq as els d hlen] at hpts
  injection hpts with h
  subst h
  have hX : (List.zipWith (fun a b => a * b)
      (List.zipWith (fun a b => a * b) d ((meshEls as els).map Real.cos))
      ((meshAzs as els).map Real.cos)).length = d.length := by
    simp [List.length_zipWith, meshEls_length, meshAzs_length, hlen]
  have hY : ((List.zipWith (fun a b => a * b)
      (List.zipWith (fun a b => a * b) d ((meshEls as els).map Real.cos))
      ((meshAzs as els).map Real.sin)).map (fun v => -v)).length
      = d.length := by
    simp [List.length_zipWith, meshEls_length, meshAzs_length, hlen]
  have hZ : (List.zipWith (fun a b => a * b) d
      ((meshEls as els).map Real.sin)).length = d.length := by
    simp [List.length_zipWith, meshEls_length, hlen]
  rw [stack3_length _ _ _ (by rw [hX, hY]) (by rw [hY, hZ]), hX]

theorem candidatePoints_getElem (as els d : List ℝ) (pts : List Point)
    (i j : ℕ) (ai elj dk : ℝ)
    (hlen : d.length = as.length * els.length)
    (hpts : candidatePoints as els d = some pts)
    (hi : as[i]? = some ai) (hj : els[j]? = some elj)
    (hd : d[i * els.length + j]? = some dk) :
    pts[i * els.length + j]? =
      some (dk * Real.cos elj * Real.cos ai,
        -(dk * Real.cos elj * Real.sin ai), dk * Real.sin elj) := by
  obtain ⟨hiL, -⟩ := List.getElem?_eq_some.mp hi
  obtain ⟨hjL, -⟩ := List.getElem?_eq_some.mp hj
  rw [candidatePoints_eq as els d hlen] at hpts
  injection hpts with hp
  subst hp
  have hmE := meshEls_getElem as els i j hiL hjL
  rw [hj] at hmE
  have hcosE : ((meshEls as els).map Real.cos)[i * els.length + j]?
      = some (Real.cos elj) := by rw [List.getElem?_map, hmE]; rfl
  have hsinE : ((meshEls as els).map Real.sin)[i * els.length + j]?
      = some (Real.sin elj) := by rw [List.getElem?_map, hmE]; rfl
  have hmA := meshAzs_getElem as els i j ai hi hjL
  have hcosA : ((meshAzs as els).map Real.cos)[i * els.length + j]?
      = some (Real.cos ai) := by rw [List.getElem?_map, hmA]; rfl
  have hsinA : ((meshAzs as els).map Real.sin)[i * els.length + j]?
      = some (Real.sin ai) := by rw [List.getElem?_map, hmA]; rfl
  have hdce := zipWith_getElem (fun a b => a * b) d _ _ dk (Real.cos elj)
    hd hcosE
  have hX := zipWith_getElem (fun a b => a * b) _ _ _ _ (Real.cos ai)
    hdce hcosA
  have hY := zipWith_getElem (fun a b => a * b) _ _ _ _ (Real.sin ai)
    hdce hsinA
  have hnegY : ((List.zipWith (fun a b => a * b)
      (List.zipWith (fun a b => a * b) d ((meshEls as els).map Real.cos))
      ((meshAzs as els).map Real.sin)).map
        (fun v => -v))[i * els.length + j]?
      = some (-(dk * Real.cos elj * Real.sin ai)) := by
    rw [List.getElem?_map, hY]; rfl
  have hZ := zipWith_getElem (fun a b => a * b) d _ _ dk (Real.sin elj)
    hd hsinE
  exact stack3_getElem _ _ _ _ _ _ _ hX hnegY hZ

theorem keepPoint_iff (p : Point) :
    keepPoint p = true ↔ (0.5 ≤ pnorm p ∧ pnorm p ≤ 200) := by
  unfold keepPoint
  exact ⟨fun h => @of_decide_eq_true _ (Classical.propDecidable _) h,
    fun h => @decide_eq_true _ (Classical.propDecidable _) h⟩

/-- The norm of one candidate point is the absolute value of its range. -/
theorem candidate_pnorm (dk ai elj : ℝ) :
    pnorm (dk * Real.cos elj * Real.cos ai,
      -(dk * Real.cos elj * Real.sin ai), dk * Real.sin elj) = |dk| := by
  have hsq : (dk * Real.cos elj * Real.cos ai) ^ 2
      + (-(dk * Real.cos elj * Real.sin ai)) ^ 2
      + (dk * Real.sin elj) ^ 2 = dk ^ 2 := by
    have h1 := Real.sin_sq_add_cos_sq ai
    have h2 := Real.sin_sq_add_cos_sq elj
    linear_combination (dk ^ 2 * (Real.cos elj) ^ 2) * h1 + dk ^ 2 * h2
  show Real.sqrt ((dk * Real.cos elj * Real.cos ai) ^ 2
      + (-(dk * Real.cos elj * Real.sin ai)) ^ 2
      + (dk * Real.sin elj) ^ 2) = |dk|
  rw [hsq]
  exact Real.sqrt_sq_eq_abs dk

/-- Shared concrete evaluation: one azimuth `0`, one elevation `0`, one
range `10` produces the single candidate point `(10, 0, 0)`. -/
theorem candidatePoints_simple :
    candidatePoints [(0 : ℝ)] [(0 : ℝ)] [(10 : ℝ)]
      = some [((10 : ℝ), 0, 0)] := by
  simp [candidatePoints, sph2cart, bmul, meshEls, meshAzs, stack3]

/-- C1: for every azimuth sequence, elevation sequence and range sequence
with `|ranges| = |azimuths| * |elevations|`, the spherical-to-cartesian
conversion (including the handedness flip applied by `get_points`) produces,
at flattened output index `i * |elevations| + j` (azimuth index `i`,
elevation index `j`, elevation varying fastest), the point
`x = d * cos el * cos az`, `y = -d * cos el * sin az`, `z = d * sin el`
where `d` is the range at that same flattened index. -/
theorem sph2cart_flattened_index (as els d : List ℝ) (pts : List Point)
    (i j : ℕ) (ai elj dk : ℝ)
    (hlen : d.length = as.length * els.length)
    (hpts : candidatePoints as els d = some pts)
    (hi : as[i]? = some ai) (hj : els[j]? = some elj)
    (hd : d[i * els.length + j]? = some dk) :
    pts[i * els.length + j]? =
      some (dk * Real.cos elj * Real.cos ai,
        -(dk * Real.cos elj * Real.sin ai), dk * Real.sin elj) :=
  candidatePoints_getElem as els d pts i j ai elj dk hlen hpts hi hj hd

/-- Witness for `sph2cart_flattened_index` at `as = [0]`, `els = [0]`,
`d = [10]`, `i = j = 0`. -/
theorem sph2cart_flattened_index_witness :
    candidatePoints [(0 : ℝ)] [(0 : ℝ)] [(10 : ℝ)] = some [((10 : ℝ), 0, 0)]
    ∧ ([((10 : ℝ), (0 : ℝ), (0 : ℝ))] :
        List Point)[0 * ([(0 : ℝ)] : List ℝ).length + 0]?
      = some ((10 : ℝ), 0, 0) := by
  refine ⟨candidatePoints_simple, ?_⟩
  have h := sph2cart_flattened_index [(0 : ℝ)] [(0 : ℝ)] [(10 : ℝ)]
    [((10 : ℝ), 0, 0)] 0 0 0 0 10 (by simp) candidatePoints_simple
    (by simp) (by simp) (by simp)
  simpa using h

/-- C10: the candidate point generated from decoded range `d`, azimuth `az`
and elevation `el` has Euclidean norm `|d|`; hence for non-negative decoded
ranges the range filter keeps the candidate iff `0.5 ≤ d ≤ 200`. -/
theorem candidate_norm_and_filter (as els d : List ℝ) (pts : List Point)
    (i j : ℕ) (ai elj dk : ℝ)
    (hlen : d.length = as.length * els.length)
    (hpts : candidatePoints as els d = some pts)
    (hi : as[i]? = some ai) (hj : els[j]? = some elj)
    (hd : d[i * els.length + j]? = some dk) :
    ∃ p, pts[i * els.length + j]? = some p ∧ pnorm p = |dk| ∧
      (0 ≤ dk → (keepPoint p = true ↔ (0.5 ≤ dk ∧ dk ≤ 200))) := by
  refine ⟨_, candidatePoints_getElem as els d pts i j ai elj dk
    hlen hpts hi hj hd, candidate_pnorm dk ai elj, ?_⟩
  intro hdk
  rw [keepPoint_iff, candidate_pnorm dk ai elj, abs_of_nonneg hdk]

/-- Witness for `candidate_norm_and_filter` at the same concrete input. -/
theorem candidate_norm_and_filter_witness :
    candidatePoints [(0 : ℝ)] [(0 : ℝ)] [(10 : ℝ)] = some [((10 : ℝ), 0, 0)]
    ∧ ∃ p, ([((10 : ℝ), (0 : ℝ), (0 : ℝ))] :
        List Point)[0 * ([(0 : ℝ)] : List ℝ).length + 0]? = some p
      ∧ pnorm p = |(10 : ℝ)|
      ∧ (0 ≤ (10 : ℝ) →
          (keepPoint p = true ↔ (0.5 ≤ (10 : ℝ) ∧ (10 : ℝ) ≤ 200))) :=
  ⟨candidatePoints_simple,
    candidate_norm_and_filter [(0 : ℝ)] [(0 : ℝ)] [(10 : ℝ)]
      [((10 : ℝ), 0, 0)] 0 0 0 0 10 (by simp) candidatePoints_simple
      (by simp) (by simp) (by simp)⟩

/-! ## Decoder computations -/

theorem floor_azimuths (d : List ℕ) (e : ℕ) :
    ⌊get_number_of_azimuths (get_number_of_points d) e⌋₊
      = d.length / (2 * e) := by
  unfold get_number_of_azimuths get_number_of_points
  rw [div_div, show ((2 : ℚ) * (e : ℚ)) = ((2 * e : ℕ) : ℚ) by push_cast; ring,
    Nat.floor_div_nat, Nat.floor_natCast]

theorem accum_single (a b : ℝ) (e : ℕ) (d : List ℕ)
    (hd : d ≠ []) (he : e ≠ 0) :
    accumSlices ([], []) [⟨a, b, e, d⟩]
      = some (linspace a b (d.length / (2 * e)), d) := by
  simp [accumSlices, hd, he, floor_azimuths]

theorem linspace_one (a b : ℝ) : linspace a b 1 = [a] := by
  simp [linspace]

theorem deg2rad_zero : deg2rad 0 = 0 := by
  simp [deg2rad]

/-- Norm of a candidate at azimuth `0` and radius `10`. -/
theorem pnorm_ten (t : ℝ) :
    pnorm ((10 : ℝ) * Real.cos t, 0, 10 * Real.sin t) = 10 := by
  have hsq : ((10 : ℝ) * Real.cos t) ^ 2 + (0 : ℝ) ^ 2
      + ((10 : ℝ) * Real.sin t) ^ 2 = 100 := by
    have h := Real.sin_sq_add_cos_sq t
    linear_combination (100 : ℝ) * h
  show Real.sqrt (((10 : ℝ) * Real.cos t) ^ 2 + (0 : ℝ) ^ 2
      + ((10 : ℝ) * Real.sin t) ^ 2) = 10
  rw [hsq, show (100 : ℝ) = 10 ^ 2 by norm_num,
    Real.sqrt_sq (by norm_num : (0 : ℝ) ≤ 10)]

/-- Every scenario candidate passes the range filter. -/
theorem keepPoint_ten (t : ℝ) :
    keepPoint ((10 : ℝ) * Real.cos t, 0, 10 * Real.sin t) = true := by
  rw [keepPoint_iff, pnorm_ten]
  constructor <;> norm_num

theorem u16pairs_b32 : u16pairs b32 = List.replicate 16 1000 := by decide

theorem distances_b32 :
    (u16pairs b32).map (fun (n : ℕ) => (n : ℝ) / 100)
      = List.replicate 16 (10 : ℝ) := by
  rw [u16pairs_b32, List.map_replicate]
  norm_num

theorem get_points_scenario :
    get_points [(0 : ℝ)] (VERTICAL_ANGLES_16.map deg2rad) b32
      = some scenarioPoints := by
  rw [get_points, if_pos (by decide : b32.length % 2 = 0), distances_b32]
  simp only [VERTICAL_ANGLES_16, scenarioPoints, candidatePoints, sph2cart,
    meshEls, meshAzs, stack3, bmul, List.replicate, List.map_cons,
    List.map_nil, List.append_nil, List.zipWith_cons_cons,
    List.zipWith_nil_right, List.zipWith_nil_left, List.length_cons,
    List.length_nil, if_pos, Real.cos_zero, Real.sin_zero, mul_one, mul_zero,
    neg_zero, List.nil_append, List.cons_append]
  norm_num [List.filter, keepPoint_ten]

/-- Decoding one slice with `start_azimuth = end_azimuth = 0` and the 32-byte
scenario buffer succeeds whenever the truncated azimuth count is `1`
(so in particular for `entries_per_azimuth` 16 and 9). -/
theorem extractor_scenario (e : ℕ) (he : e ≠ 0)
    (hnaz : b32.length / (2 * e) = 1) :
    point_cloud_reading_extractor [⟨0, 0, e, b32⟩] = some scenarioPoints := by
  simp only [point_cloud_reading_extractor,
    accum_single 0 0 e b32 (by decide) he, hnaz, linspace_one]
  rw [show (([(0 : ℝ)]).map deg2rad) = [(0 : ℝ)] by simp [deg2rad_zero]]
  rw [get_points_scenario]
  simp [scenarioPoints, VERTICAL_ANGLES_16]

/-! ## The range filter invariant -/

theorem get_points_mem_keep (az el : List ℝ) (b : List ℕ) (pts : List Point)
    (p : Point) (h : get_points az el b = some pts) (hp : p ∈ pts) :
    keepPoint p = true := by
  rw [get_points] at h
  by_cases he : b.length % 2 = 0
  · rw [if_pos he] at h
    cases hc : candidatePoints az el
        ((u16pairs b).map (fun (n : ℕ) => (n : ℝ) / 100)) with
    | none => rw [hc] at h; exact absurd h (by simp)
    | some cand =>
      rw [hc] at h
      injection h with h
      subst h
      exact List.of_mem_filter hp
  · rw [if_neg he] at h
    exact absurd h (by simp)

theorem extractor_mem_keep (envs : List PointCloudReading)
    (pts : List Point) (p : Point)
    (h : point_cloud_reading_extractor envs = some pts) (hp : p ∈ pts) :
    keepPoint p = true := by
  rw [point_cloud_reading_extractor] at h
  split at h
  · exact absurd h (by simp)
  · split at h
    · exact absurd h (by simp)
    · rename_i azs bin l hg
      split at h
      · exact absurd h (by simp)
      · injection h with h
        subst h
        exact get_points_mem_keep _ _ _ _ _ hg hp

/-- C5: every point of every point cloud produced by the decoder satisfies
`0.5 ≤ sqrt(x^2 + y^2 + z^2) ≤ 200`; a point outside this band never
appears. -/
theorem decoded_points_within_range_band (envs : List PointCloudReading)
    (pts : List Point) (p : Point)
    (hpts : point_cloud_reading_extractor envs = some pts) (hp : p ∈ pts) :
    0.5 ≤ pnorm p ∧ pnorm p ≤ 200 :=
  (keepPoint_iff p).mp (extractor_mem_keep envs pts p hpts hp)

/-- Witness for `decoded_points_within_range_band` on the 16-beam example
revolution. -/
theorem decoded_points_within_range_band_witness :
    point_cloud_reading_extractor
        [⟨0, 0, 16, b32⟩] = some scenarioPoints
    ∧ ((10 : ℝ) * Real.cos (deg2rad (-15.0)), (0 : ℝ),
        (10 : ℝ) * Real.sin (deg2rad (-15.0))) ∈ scenarioPoints
    ∧ (0.5 ≤ pnorm ((10 : ℝ) * Real.cos (deg2rad (-15.0)), (0 : ℝ),
          (10 : ℝ) * Real.sin (deg2rad (-15.0)))
        ∧ pnorm ((10 : ℝ) * Real.cos (deg2rad (-15.0)), (0 : ℝ),
          (10 : ℝ) * Real.sin (deg2rad (-15.0))) ≤ 200) := by
  have hext := extractor_scenario 16 (by decide) (by decide)
  have hmem : ((10 : ℝ) * Real.cos (deg2rad (-15.0)), (0 : ℝ),
      (10 : ℝ) * Real.sin (deg2rad (-15.0))) ∈ scenarioPoints := by
    simp [scenarioPoints, VERTICAL_ANGLES_16]
  exact ⟨hext, hmem,
    decoded_points_within_range_band _ _ _ hext hmem⟩

/-! ## The frame transformer at zero angles -/

theorem transform_coords_zero (pos : ℝ × ℝ) (pts : List Point) :
    transform_coords 0 0 0 (pos, 0, pts) = (pos, pts) := by
  unfold transform_coords applyRot rotX rotY rotZ
  simp [deg2rad]

/-- C9: applying the frame transformer with mount offsets `(0, 0, 0)` and
heading `0` is the identity on every point of the cloud, and the position
passes through unchanged. -/
theorem transform_zero_identity (pos : ℝ × ℝ) (pts : List Point) :
    transform_coords 0 0 0 (pos, 0, pts) = (pos, pts) :=
  transform_coords_zero pos pts

/-- C8: the example revolution (one slice, `start_azimuth = end_azimuth = 0`,
`entries_per_slice = 16`, sixteen big-endian `uint16` samples of `1000`)
decodes to exactly 16 points, one per `VERTICAL_ANGLES_16` entry at azimuth
`0`, each at radius `10`, all passing the range filter; and with zero mount
offsets and heading `0` the transformed frame equals the decoded frame. -/
theorem example_scenario_sixteen_points :
    point_cloud_reading_extractor [⟨0, 0, 16, b32⟩] = some scenarioPoints
    ∧ scenarioPoints.length = 16
    ∧ (∀ p ∈ scenarioPoints, pnorm p = 10 ∧ keepPoint p = true)
    ∧ (∀ pos : ℝ × ℝ, transform_coords 0 0 0 (pos, 0, scenarioPoints)
        = (pos, scenarioPoints)) := by
  refine ⟨extractor_scenario 16 (by decide) (by decide), ?_, ?_,
    fun pos => transform_coords_zero pos scenarioPoints⟩
  · simp [scenarioPoints, VERTICAL_ANGLES_16]
  · intro p hp
    simp only [scenarioPoints, List.mem_map] at hp
    obtain ⟨v, -, rfl⟩ := hp
    exact ⟨pnorm_ten _, keepPoint_ten _⟩

/-! ## Decode failures and the non-integral azimuth count -/

theorem bmul_none (xs ys : List ℝ) (h1 : xs.length ≠ ys.length)
    (h2 : xs.length ≠ 1) (h3 : ys.length ≠ 1) : bmul xs ys = none := by
  simp [bmul, h1, h2, h3]

theorem candidatePoints_none (as els d : List ℝ)
    (hne : d.length ≠ as.length * els.length) (hd1 : d.length ≠ 1)
    (hg1 : as.length * els.length ≠ 1) :
    candidatePoints as els d = none := by
  have h1 : bmul d ((meshEls as els).map Real.cos) = none := by
    refine bmul_none _ _ ?_ hd1 ?_ <;>
      simp [meshEls_length, hne, hg1]
  simp [candidatePoints, sph2cart, h1]

theorem linspace_zero (a b : ℝ) : linspace a b 0 = [] := by
  simp [linspace]

/-- A single slice whose byte count is odd aborts the whole decode
(`np.frombuffer` raises). -/
theorem odd_length_single_aborts (a b : ℝ) (e : ℕ) (d : List ℕ)
    (hd : d ≠ []) (he : e ≠ 0) (hodd : d.length % 2 = 1) :
    point_cloud_reading_extractor [⟨a, b, e, d⟩] = none := by
  simp only [point_cloud_reading_extractor, accum_single a b e d hd he]
  rw [get_points, if_neg (by omega)]

/-- C2 (amended): when the truncated azimuth count times 16 differs from the
decoded sample count (and the sample count is not 1, which numpy would
broadcast), the revolution aborts with no point cloud. -/
theorem nonintegral_truncation_mismatch_aborts (a b : ℝ) (e : ℕ)
    (d : List ℕ) (hd : d ≠ []) (he : e ≠ 0)
    (heven : d.length % 2 = 0) (hS1 : d.length / 2 ≠ 1)
    (hmis : (d.length / (2 * e)) * 16 ≠ d.length / 2) :
    point_cloud_reading_extractor [⟨a, b, e, d⟩] = none := by
  simp only [point_cloud_reading_extractor, accum_single a b e d hd he]
  rw [get_points, if_pos heven]
  have h16 : (VERTICAL_ANGLES_16.map deg2rad).length = 16 := by
    simp [VERTICAL_ANGLES_16]
  have hA : ((linspace a b (d.length / (2 * e))).map deg2rad).length
      = d.length / (2 * e) := by simp [linspace_length]
  have hD : ((u16pairs d).map (fun (n : ℕ) => (n : ℝ) / 100)).length
      = d.length / 2 := by simp [u16pairs_length]
  have hcand : candidatePoints
      ((linspace a b (d.length / (2 * e))).map deg2rad)
      (VERTICAL_ANGLES_16.map deg2rad)
      ((u16pairs d).map (fun (n : ℕ) => (n : ℝ) / 100)) = none := by
    refine candidatePoints_none _ _ _ ?_ ?_ ?_
    · rw [hD, hA, h16]
      exact fun h => hmis h.symm
    · rw [hD]
      exact hS1
    · rw [hA, h16]
      generalize d.length / (2 * e) = A
      omega
  rw [hcand]

/-- Witness for `nonintegral_truncation_mismatch_aborts`: a 4-byte buffer
with 16 entries per azimuth (azimuth count truncates to 0). -/
theorem nonintegral_truncation_mismatch_aborts_witness :
    ([3, 232, 3, 232] : List ℕ) ≠ []
    ∧ (16 : ℕ) ≠ 0
    ∧ ([3, 232, 3, 232] : List ℕ).length % 2 = 0
    ∧ ([3, 232, 3, 232] : List ℕ).length / 2 ≠ 1
    ∧ (([3, 232, 3, 232] : List ℕ).length / (2 * 16)) * 16
        ≠ ([3, 232, 3, 232] : List ℕ).length / 2
    ∧ point_cloud_reading_extractor [⟨0, 0, 16, [3, 232, 3, 232]⟩] = none :=
  ⟨by decide, by decide, by decide, by decide, by decide,
    nonintegral_truncation_mismatch_aborts 0 0 16 [3, 232, 3, 232]
      (by decide) (by decide) (by decide) (by decide) (by decide)⟩

/-- C2 (counterexample): a slice with 16 samples and
`entries_per_slice = 9` has a non-integral `n_points / entries_per_slice`
(`16/9`), yet decoding does not abort: it produces a non-empty point
cloud. -/
theorem nonintegral_division_can_yield_cloud :
    point_cloud_reading_extractor [⟨0, 0, 9, b32⟩] = some scenarioPoints
    ∧ scenarioPoints ≠ []
    ∧ (⌊get_number_of_azimuths (get_number_of_points b32) 9⌋₊ : ℚ)
        ≠ get_number_of_azimuths (get_number_of_points b32) 9 := by
  refine ⟨extractor_scenario 9 (by decide) (by decide), ?_, ?_⟩
  · simp [scenarioPoints, VERTICAL_ANGLES_16]
  · have hv : get_number_of_azimuths (get_number_of_points b32) 9
        = 16 / 9 := by norm_num [get_number_of_azimuths, get_number_of_points, b32]
    rw [floor_azimuths, hv, show b32.length / (2 * 9) = 1 by decide]
    norm_num

/-- C6 (amended): a failed revolution (here the odd-length example) yields
`none`; and any revolution on which the decoder yields `none` contributes
nothing downstream while all other revolutions are processed exactly as they
would be on their own. -/
theorem decode_failure_containment
    (revs1 revs2 : List (List PointCloudReading))
    (bad : List PointCloudReading)
    (hbad : point_cloud_reading_extractor bad = none) :
    point_cloud_reading_extractor [⟨0, 0, 16, [1, 2, 3]⟩] = none
    ∧ pipelineOutputs (revs1 ++ bad :: revs2)
        = pipelineOutputs revs1 ++ pipelineOutputs revs2 := by
  refine ⟨odd_length_single_aborts 0 0 16 [1, 2, 3]
    (by decide) (by decide) (by decide), ?_⟩
  simp [pipelineOutputs, hbad]

/-- Witness for `decode_failure_containment` with the odd-length revolution
itself as the failing one. -/
theorem decode_failure_containment_witness :
    point_cloud_reading_extractor [⟨0, 0, 16, [1, 2, 3]⟩] = none
    ∧ (point_cloud_reading_extractor [⟨0, 0, 16, [1, 2, 3]⟩] = none
      ∧ pipelineOutputs ([] ++ [⟨0, 0, 16, [1, 2, 3]⟩] :: [])
          = pipelineOutputs [] ++ pipelineOutputs []) :=
  ⟨odd_length_single_aborts 0 0 16 [1, 2, 3]
      (by decide) (by decide) (by decide),
    decode_failure_containment [] [] _
      (odd_length_single_aborts 0 0 16 [1, 2, 3]
        (by decide) (by decide) (by decide))⟩

/-- C6 (counterexample): non-integral division does not force "no output":
the `entries_per_slice = 9` revolution has non-integral
`n_points / entries_per_slice` yet contributes a point cloud downstream. -/
theorem decoder_yields_output_despite_nonintegral :
    pipelineOutputs [[⟨0, 0, 9, b32⟩]] = [scenarioPoints]
    ∧ scenarioPoints ≠ []
    ∧ (⌊get_number_of_azimuths (get_number_of_points b32) 9⌋₊ : ℚ)
        ≠ get_number_of_azimuths (get_number_of_points b32) 9 := by
  refine ⟨?_, ?_, ?_⟩
  · simp [pipelineOutputs, extractor_scenario 9 (by decide) (by decide)]
  · simp [scenarioPoints, VERTICAL_ANGLES_16]
  · have hv : get_number_of_azimuths (get_number_of_points b32) 9
        = 16 / 9 := by norm_num [get_number_of_azimuths, get_number_of_points, b32]
    rw [floor_azimuths, hv, show b32.length / (2 * 9) = 1 by decide]
    norm_num

/-! ## The latest-value join -/

theorem joinStep_fst_pos (s : JoinState) (c : List Point) :
    ((joinStep s (.pcdEv c)).1).pos = s.pos := by
  cases hp : s.pos <;> cases hh : s.hdg <;> simp [joinStep, hp, hh]

theorem joinStep_fst_hdg (s : JoinState) (c : List Point) :
    ((joinStep s (.pcdEv c)).1).hdg = s.hdg := by
  cases hp : s.pos <;> cases hh : s.hdg <;> simp [joinStep, hp, hh]

theorem joinRun_pos_isSome (tr : List JoinEvent) : ∀ s : JoinState,
    ((joinRun s tr).pos).isSome
      ↔ (s.pos.isSome ∨ ∃ p, JoinEvent.posEv p ∈ tr) := by
  induction tr with
  | nil => intro s; simp [joinRun]
  | cons e tr ih =>
    intro s
    rw [show joinRun s (e :: tr) = joinRun (joinStep s e).1 tr from rfl, ih]
    cases e with
    | posEv p => simp [joinStep]
    | hdgEv h => simp [joinStep]
    | pcdEv c => simp [joinStep_fst_pos]

theorem joinRun_hdg_isSome (tr : List JoinEvent) : ∀ s : JoinState,
    ((joinRun s tr).hdg).isSome
      ↔ (s.hdg.isSome ∨ ∃ h, JoinEvent.hdgEv h ∈ tr) := by
  induction tr with
  | nil => intro s; simp [joinRun]
  | cons e tr ih =>
    intro s
    rw [show joinRun s (e :: tr) = joinRun (joinStep s e).1 tr from rfl, ih]
    cases e with
    | posEv p => simp [joinStep]
    | hdgEv h => simp [joinStep]
    | pcdEv c => simp [joinStep_fst_hdg]

theorem joinStep_pcd_emits (s : JoinState) (c : List Point) :
    ((joinStep s (.pcdEv c)).2).isSome ↔ (s.pos.isSome ∧ s.hdg.isSome) := by
  cases hp : s.pos <;> cases hh : s.hdg <;> simp [joinStep, hp, hh]

/-- C4: starting from the empty join state, a point-cloud arrival produces a
fused frame iff at least one position and one heading update have been
observed before it; position and heading updates alone never emit. -/
theorem latest_join_gating (tr : List JoinEvent) (c : List Point) :
    (((joinStep (joinRun joinInit tr) (.pcdEv c)).2).isSome
      ↔ ((∃ p, JoinEvent.posEv p ∈ tr) ∧ (∃ h, JoinEvent.hdgEv h ∈ tr)))
    ∧ (∀ (s : JoinState) (p : ℝ × ℝ), (joinStep s (.posEv p)).2 = none)
    ∧ (∀ (s : JoinState) (h : ℝ), (joinStep s (.hdgEv h)).2 = none) := by
  refine ⟨?_, fun s p => rfl, fun s h => rfl⟩
  rw [joinStep_pcd_emits, joinRun_pos_isSome, joinRun_hdg_isSome]
  simp [joinInit]

/-! ## The rate-limited tail: spacing of emissions -/

theorem rlRun_nil {α : Type} (I : ℚ) (s : RLState α) :
    rlRun I s [] = (s, []) := rfl

theorem rlRun_cons {α : Type} (I : ℚ) (s : RLState α) (t : ℚ) (f : α)
    (rest : List (ℚ × α)) :
    rlRun I s ((t, f) :: rest)
      = ((rlRun I (rlStep I s t f).1 rest).1,
        (rlStep I s t f).2 ++ (rlRun I (rlStep I s t f).1 rest).2) := rfl

theorem rlStep_facts {α : Type} (I : ℚ) (hI : 0 ≤ I) (s : RLState α)
    (t : ℚ) (f : α) :
    List.Chain' (fun a b => a + I ≤ b) ((rlStep I s t f).2.map Prod.fst)
    ∧ (∀ x ∈ (rlStep I s t f).2,
        s.next ≤ x.1 ∧ x.1 + I ≤ (rlStep I s t f).1.next)
    ∧ s.next ≤ (rlStep I s t f).1.next := by
  unfold rlStep
  cases hp : s.pending with
  | none =>
    simp only [hp]
    split_ifs with h1
    · refine ⟨by simp, ?_,
        by have := le_max_right t s.next; simp only []; linarith⟩
      intro x hx
      simp only [List.nil_append, List.mem_singleton] at hx
      subst hx
      exact ⟨le_max_right _ _, le_refl _⟩
    · exact ⟨by simp, by simp, le_refl _⟩
  | some g =>
    simp only [hp]
    split_ifs with h1 h2
    · -- flushed at `freeAt`, then `f` handed over as well
      refine ⟨?_, ?_, ?_⟩
      · simp only [List.map_append, List.map_cons, List.map_nil]
        refine List.chain'_pair.mpr ?_
        have := le_max_right t (max s.freeAt s.next + I)
        linarith
      · intro x hx
        simp only [List.mem_append, List.mem_singleton] at hx
        have hm1 := le_max_right s.freeAt s.next
        have hm2 := le_max_right t (max s.freeAt s.next + I)
        rcases hx with hx | hx <;> subst hx
        · exact ⟨hm1, by simp only []; linarith⟩
        · exact ⟨by simp only []; linarith, le_refl _⟩
      · have hm1 := le_max_right s.freeAt s.next
        have hm2 := le_max_right t (max s.freeAt s.next + I)
        simp only []
        linarith
    · -- flushed at `freeAt`, `f` becomes the pending frame
      refine ⟨by simp, ?_, ?_⟩
      · intro x hx
        simp only [List.mem_singleton] at hx
        subst hx
        exact ⟨le_max_right _ _, le_refl _⟩
      · have := le_max_right s.freeAt s.next
        simp only []
        linarith
    · -- still busy: `f` replaces the pending frame, nothing emitted
      exact ⟨by simp, by simp, le_refl _⟩

theorem rlFinish_facts {α : Type} (I : ℚ) (s : RLState α) :
    List.Chain' (fun a b => a + I ≤ b) ((rlFinish I s).map Prod.fst)
    ∧ ∀ x ∈ rlFinish I s, s.next ≤ x.1 := by
  cases hp : s.pending <;> simp [rlFinish, hp, le_max_right]

theorem rlRun_facts {α : Type} (I : ℚ) (hI : 0 ≤ I) :
    ∀ (ar : List (ℚ × α)) (s : RLState α),
    List.Chain' (fun a b => a + I ≤ b)
      (((rlRun I s ar).2 ++ rlFinish I (rlRun I s ar).1).map Prod.fst)
    ∧ (∀ x ∈ (rlRun I s ar).2 ++ rlFinish I (rlRun I s ar).1, s.next ≤ x.1)
  | [], s => by
    rw [rlRun_nil]
    simpa using rlFinish_facts I s
  | (t, f) :: rest, s => by
    have hstep := rlStep_facts I hI s t f
    have hrest := rlRun_facts I hI rest (rlStep I s t f).1
    rw [rlRun_cons]
    simp only [List.append_assoc, List.map_append]
    constructor
    · refine List.Chain'.append hstep.1 ?_ ?_
      · have := hrest.1
        rwa [List.map_append] at this
      · intro x hx y hy
        have hx' := List.mem_of_mem_getLast? hx
        have hy' := List.mem_of_mem_head? hy
        rw [← List.map_append] at hy'
        obtain ⟨px, hpx, rfl⟩ := List.mem_map.mp hx'
        obtain ⟨py, hpy, rfl⟩ := List.mem_map.mp hy'
        have h1 := (hstep.2.1 px hpx).2
        have h2 := hrest.2 py hpy
        linarith
    · intro x hx
      rcases List.mem_append.mp hx with hx | hx
      · exact (hstep.2.1 x hx).1
      · exact hstep.2.2.trans (hrest.2 x hx)

theorem chain_le_of_mem (I : ℚ) (hI : 0 ≤ I) :
    ∀ (a : ℚ) (l : List ℚ),
      List.Chain' (fun x y => x + I ≤ y) (a :: l) → ∀ b ∈ l, a + I ≤ b
  | a, [], _, b, hb => by simp at hb
  | a, c :: l, h, b, hb => by
    have h1 : a + I ≤ c := (List.chain'_cons.mp h).1
    have h2 := (List.chain'_cons.mp h).2
    rcases List.mem_cons.mp hb with rfl | hb
    · exact h1
    · have := chain_le_of_mem I hI c l h2 b hb
      linarith

theorem chain_filter (I : ℚ) (hI : 0 ≤ I) (q : ℚ → Bool) :
    ∀ (l : List ℚ), List.Chain' (fun x y => x + I ≤ y) l →
      List.Chain' (fun x y => x + I ≤ y) (l.filter q)
  | [], _ => by simp
  | a :: l, h => by
    have htail := chain_filter I hI q l (List.chain'_cons'.mp h).2
    rw [List.filter_cons]
    split_ifs with hq
    · refine List.chain'_cons'.mpr ⟨?_, htail⟩
      intro y hy
      have hy2 := List.mem_of_mem_filter (List.mem_of_mem_head? hy)
      exact chain_le_of_mem I hI a l h y hy2
    · exact htail

theorem chain_head_last (I : ℚ) (hI : 0 ≤ I) :
    ∀ (l : List ℚ), List.Chain' (fun x y => x + I ≤ y) l →
      ∀ a ∈ l.head?, ∀ z ∈ l.getLast?,
        a + ((l.length : ℚ) - 1) * I ≤ z
  | [], _, a, ha, z, hz => by simp at ha
  | [x], _, a, ha, z, hz => by
    simp only [List.head?_cons, List.getLast?_singleton, Option.mem_def,
      Option.some.injEq] at ha hz
    subst ha; subst hz
    simp
  | x :: y :: l, h, a, ha, z, hz => by
    simp only [List.head?_cons, Option.mem_def, Option.some.injEq] at ha
    subst ha
    have h1 : x + I ≤ y := (List.chain'_cons.mp h).1
    have h2 := (List.chain'_cons.mp h).2
    have hz' : z ∈ (y :: l).getLast? := by
      rwa [List.getLast?_cons_cons] at hz
    have ih := chain_head_last I hI (y :: l) h2 y (by simp) z hz'
    have hlen : ((x :: y :: l).length : ℚ) = ((y :: l).length : ℚ) + 1 := by
      push_cast [List.length_cons]
      ring
    rw [hlen]
    linarith

theorem spaced_window_count (I : ℚ) (hI : 0 < I) (l : List ℚ)
    (hc : List.Chain' (fun x y => x + I ≤ y) l) (lo T : ℚ) (hT : 0 ≤ T)
    (hin : ∀ τ ∈ l, lo ≤ τ ∧ τ ≤ lo + T) :
    (l.length : ℚ) * I ≤ T + I := by
  cases l with
  | nil => simp; linarith
  | cons a l =>
    have hne : (a :: l) ≠ [] := by simp
    have hz : (a :: l).getLast? = some ((a :: l).getLast hne) :=
      List.getLast?_eq_getLast _ hne
    have hhl := chain_head_last I hI.le (a :: l) hc a (by simp)
      ((a :: l).getLast hne) hz
    have hmem_z : (a :: l).getLast hne ∈ a :: l := List.getLast_mem hne
    have h1 := hin a (by simp)
    have h2 := hin _ hmem_z
    have hring : ((a :: l).length : ℚ) * I - I
        = (((a :: l).length : ℚ) - 1) * I := by ring
    linarith [hhl, h1.1, h2.2]

theorem map_fst_filter {α : Type} (q : ℚ → Bool) (l : List (ℚ × α)) :
    (l.filter (fun x => q x.1)).map Prod.fst = (l.map Prod.fst).filter q := by
  induction l with
  | nil => simp
  | cons x l ih =>
    cases hq : q x.1 <;> simp [List.filter_cons, hq, ih]

/-- C3 (amended): the emissions of `.latest().rate_limit(0.5)` are at least
`0.5` seconds apart, so any window `[lo, lo + T]` contains at most
`ceil(T * 2) + 1` of them (the configured value `0.5` is the minimum
inter-emission interval in seconds, i.e. up to 2 frames per second). -/
theorem rate_limit_window_bound {α : Type} (ar : List (ℚ × α))
    (lo T : ℚ) (hT : 0 ≤ T) :
    (((rateLimitEmissions (1/2 : ℚ) ar).filter
        (fun x => decide (lo ≤ x.1) && decide (x.1 ≤ lo + T))).length : ℤ)
      ≤ ⌈T * 2⌉ + 1 := by
  have hfacts := rlRun_facts (1/2 : ℚ) (by norm_num) ar rlInit
  have hchain : List.Chain' (fun x y => x + (1/2 : ℚ) ≤ y)
      ((rateLimitEmissions (1/2 : ℚ) ar).map Prod.fst) := hfacts.1
  have hfilter_eq := map_fst_filter
    (fun τ => decide (lo ≤ τ) && decide (τ ≤ lo + T))
    (rateLimitEmissions (1/2 : ℚ) ar)
  have hchainf := chain_filter (1/2 : ℚ) (by norm_num)
    (fun τ => decide (lo ≤ τ) && decide (τ ≤ lo + T)) _ hchain
  have hin : ∀ τ ∈ ((rateLimitEmissions (1/2 : ℚ) ar).map Prod.fst).filter
      (fun τ => decide (lo ≤ τ) && decide (τ ≤ lo + T)),
      lo ≤ τ ∧ τ ≤ lo + T := by
    intro τ hτ
    have hq := List.of_mem_filter hτ
    simpa using hq
  have hcount := spaced_window_count (1/2 : ℚ) (by norm_num) _ hchainf
    lo T hT hin
  have hlen : (((rateLimitEmissions (1/2 : ℚ) ar).filter
      (fun x => decide (lo ≤ x.1) && decide (x.1 ≤ lo + T))).length : ℚ)
      = ((((rateLimitEmissions (1/2 : ℚ) ar).map Prod.fst).filter
        (fun τ => decide (lo ≤ τ) && decide (τ ≤ lo + T))).length : ℚ) := by
    rw [← hfilter_eq, List.length_map]
  have hceil : (T * 2 : ℚ) ≤ (⌈T * 2⌉ : ℚ) := Int.le_ceil _
  have hfin : (((rateLimitEmissions (1/2 : ℚ) ar).filter
      (fun x => decide (lo ≤ x.1) && decide (x.1 ≤ lo + T))).length : ℚ)
      ≤ (⌈T * 2⌉ : ℚ) + 1 := by
    rw [hlen]
    linarith
  exact_mod_cast hfin

/-- Witness for `rate_limit_window_bound` at a one-arrival trace, window
`[0, 1]`. -/
theorem rate_limit_window_bound_witness :
    (0 : ℚ) ≤ 1
    ∧ (((rateLimitEmissions (1/2 : ℚ) [((0 : ℚ), (0 : ℕ))]).filter
        (fun x => decide ((0 : ℚ) ≤ x.1) && decide (x.1 ≤ 0 + 1))).length : ℤ)
      ≤ ⌈(1 : ℚ) * 2⌉ + 1 :=
  ⟨by norm_num, rate_limit_window_bound [((0 : ℚ), (0 : ℕ))] 0 1 (by norm_num)⟩

/-- C3 (counterexample): with arrivals at 0, 0.5 and 1.0 seconds all three
frames are emitted inside the window `[0, 1]` of length `T = 1`, exceeding
the claimed bound `ceil(T * 0.5) + 1 = 2`. -/
theorem rate_limit_claimed_bound_violated :
    rateLimitEmissions (1/2 : ℚ) [((0 : ℚ), (0 : ℕ)), (1/2, 1), (1, 2)]
      = [((0 : ℚ), (0 : ℕ)), (1/2, 1), (1, 2)]
    ∧ (∀ x ∈ rateLimitEmissions (1/2 : ℚ)
          [((0 : ℚ), (0 : ℕ)), (1/2, 1), (1, 2)],
        (0 : ℚ) ≤ x.1 ∧ x.1 ≤ 0 + 1)
    ∧ ¬ (((rateLimitEmissions (1/2 : ℚ)
          [((0 : ℚ), (0 : ℕ)), (1/2, 1), (1, 2)]).length : ℤ)
        ≤ ⌈(1 : ℚ) * (1/2 : ℚ)⌉ + 1) := by
  have hem : rateLimitEmissions (1/2 : ℚ)
      [((0 : ℚ), (0 : ℕ)), (1/2, 1), (1, 2)]
      = [((0 : ℚ), (0 : ℕ)), (1/2, 1), (1, 2)] := by
    norm_num [rateLimitEmissions, rlRun, rlStep, rlFinish, rlInit, max_def]
  have hceil : ⌈(1 : ℚ) * (1/2 : ℚ)⌉ = 1 := by
    rw [show ((1 : ℚ) * (1/2 : ℚ)) = 1/2 by ring]
    rw [Int.ceil_eq_iff]
    norm_num
  refine ⟨hem, ?_, ?_⟩
  · rw [hem]
    intro x hx
    simp only [List.mem_cons, List.not_mem_nil, or_false] at hx
    rcases hx with rfl | rfl | rfl <;> norm_num
  · rw [hem, hceil]
    norm_num

/-! ## The rate-limited tail: which frames are emitted -/

theorem rlStep_count {α : Type} [DecidableEq α] (I : ℚ) (s : RLState α)
    (t : ℚ) (f : α) (g : α) :
    (((rlStep I s t f).2.map Prod.snd).count g
        + ((rlStep I s t f).1.pending.toList).count g)
      ≤ (s.pending.toList).count g + ([f] : List α).count g := by
  unfold rlStep
  cases hp : s.pending with
  | none =>
    simp only [hp]
    split_ifs with h1 <;> simp [Option.toList]
  | some g' =>
    simp only [hp]
    split_ifs with h1 h2 <;>
      simp [Option.toList, List.count_cons, List.count_append] <;>
      split_ifs <;> omega

theorem rlFinish_count {α : Type} [DecidableEq α] (I : ℚ) (s : RLState α)
    (g : α) :
    ((rlFinish I s).map Prod.snd).count g = (s.pending.toList).count g := by
  cases hp : s.pending <;> simp [rlFinish, hp, Option.toList]

theorem rlRun_count_nofin {α : Type} [DecidableEq α] (I : ℚ) (g : α) :
    ∀ (ar : List (ℚ × α)) (s : RLState α),
    (((rlRun I s ar).2.map Prod.snd).count g
        + (((rlRun I s ar).1.pending.toList).count g))
      ≤ (s.pending.toList).count g + (ar.map Prod.snd).count g
  | [], s => by simp [rlRun_nil]
  | (t, f) :: rest, s => by
    have hstep := rlStep_count I s t f g
    have hrest := rlRun_count_nofin I g rest (rlStep I s t f).1
    rw [rlRun_cons]
    simp only [List.map_append, List.count_append, List.map_cons,
      List.count_cons]
    simp only [List.map_cons, List.count_cons, List.count_nil,
      List.map_nil] at hstep hrest ⊢
    omega

theorem rlRun_count {α : Type} [DecidableEq α] (I : ℚ) (g : α)
    (ar : List (ℚ × α)) (s : RLState α) :
    ((((rlRun I s ar).2 ++ rlFinish I (rlRun I s ar).1).map Prod.snd).count g)
      ≤ (s.pending.toList).count g + (ar.map Prod.snd).count g := by
  have h1 := rlRun_count_nofin I g ar s
  have h2 := rlFinish_count I (rlRun I s ar).1 g
  simp only [List.map_append, List.count_append]
  omega

theorem rlRun_append {α : Type} (I : ℚ) :
    ∀ (l1 l2 : List (ℚ × α)) (s : RLState α),
    rlRun I s (l1 ++ l2)
      = ((rlRun I (rlRun I s l1).1 l2).1,
        (rlRun I s l1).2 ++ (rlRun I (rlRun I s l1).1 l2).2)
  | [], l2, s => by simp [rlRun_nil]
  | (t, f) :: l1, l2, s => by
    rw [List.cons_append, rlRun_cons, rlRun_append I l1 l2 (rlStep I s t f).1,
      rlRun_cons]
    simp [List.append_assoc]

/-- C7 (amended): a frame that is buffered (pending, not yet handed to the
rate limiter) and is replaced by a newer frame while the limiter is still
busy is never observed downstream. -/
theorem replaced_pending_frame_never_emitted {α : Type} [DecidableEq α]
    (ar1 ar2 : List (ℚ × α)) (t : ℚ) (f g : α)
    (hpend : ((rlRun (1/2 : ℚ) rlInit ar1).1).pending = some g)
    (hbusy : t < ((rlRun (1/2 : ℚ) rlInit ar1).1).freeAt)
    (honce : (ar1.map Prod.snd).count g = 1)
    (hg2 : g ∉ ar2.map Prod.snd) (hgf : g ≠ f) :
    g ∉ (rateLimitEmissions (1/2 : ℚ) (ar1 ++ (t, f) :: ar2)).map Prod.snd := by
  have hnle : ¬ ((rlRun (1/2 : ℚ) rlInit ar1).1).freeAt ≤ t := not_le.mpr hbusy
  have hstep : rlStep (1/2 : ℚ) ((rlRun (1/2 : ℚ) rlInit ar1).1) t f
      = (⟨((rlRun (1/2 : ℚ) rlInit ar1).1).next,
          ((rlRun (1/2 : ℚ) rlInit ar1).1).freeAt, some f⟩, []) := by
    unfold rlStep
    simp only [hpend, if_neg hnle]
  -- count of `g` in the prefix emissions is zero
  have hpre := rlRun_count_nofin (1/2 : ℚ) g ar1 rlInit
  rw [hpend] at hpre
  have hpre0 : (((rlRun (1/2 : ℚ) rlInit ar1).2).map Prod.snd).count g
      = 0 := by
    have h1 : ((Option.some g).toList).count g = 1 := by simp
    have h2 : (((rlInit : RLState α)).pending.toList).count g = 0 := by
      simp [rlInit]
    rw [h1, h2, honce] at hpre
    omega
  -- count of `g` in the suffix emissions (from the post-replacement state)
  have hsuf := rlRun_count (1/2 : ℚ) g ar2
    (⟨((rlRun (1/2 : ℚ) rlInit ar1).1).next,
      ((rlRun (1/2 : ℚ) rlInit ar1).1).freeAt, some f⟩ : RLState α)
  have hcf : (([f] : List α).count g) = 0 := by
    simp [List.count_singleton, hgf]
  have har2 : ((ar2.map Prod.snd).count g) = 0 := List.count_eq_zero.mpr hg2
  simp only [Option.toList_some] at hsuf
  rw [hcf] at hsuf
  -- hmm: pending.toList = [f]: count g [f] = 0 via hgf
  -- assemble the full run
  rw [rateLimitEmissions, rlRun_append (1/2 : ℚ) ar1 ((t, f) :: ar2) rlInit,
    rlRun_cons, hstep]
  simp only [List.nil_append, List.map_append, List.count_append,
    List.append_assoc]
  rw [← List.count_eq_zero (a := g)] at hg2
  intro hmem
  rw [List.mem_append] at hmem
  rcases hmem with hmem | hmem
  · have := List.count_eq_zero.mp hpre0
    exact this hmem
  · rw [← List.map_append] at hmem
    have hc := List.count_eq_zero.mp (by omega : ((((rlRun (1/2 : ℚ)
        (⟨((rlRun (1/2 : ℚ) rlInit ar1).1).next,
          ((rlRun (1/2 : ℚ) rlInit ar1).1).freeAt, some f⟩ : RLState α)
        ar2).2 ++ rlFinish (1/2 : ℚ) (rlRun (1/2 : ℚ)
        (⟨((rlRun (1/2 : ℚ) rlInit ar1).1).next,
          ((rlRun (1/2 : ℚ) rlInit ar1).1).freeAt, some f⟩ : RLState α)
        ar2).1).map Prod.snd).count g = 0))
    exact hc hmem

/-- Witness for `replaced_pending_frame_never_emitted`: frame `2` arrives at
`0.2` while the limiter is busy until `0.5`, then frame `3` replaces it at
`0.3`; frame `2` is never emitted. -/
theorem replaced_pending_frame_never_emitted_witness :
    ((rlRun (1/2 : ℚ) rlInit
        [((0 : ℚ), (0 : ℕ)), (1/10, 1), (2/10, 2)]).1).pending = some 2
    ∧ (3/10 : ℚ) < ((rlRun (1/2 : ℚ) rlInit
        [((0 : ℚ), (0 : ℕ)), (1/10, 1), (2/10, 2)]).1).freeAt
    ∧ ((([((0 : ℚ), (0 : ℕ)), (1/10, 1), (2/10, 2)]).map Prod.snd).count 2
        = 1)
    ∧ (2 : ℕ) ∉ ([] : List (ℚ × ℕ)).map Prod.snd
    ∧ (2 : ℕ) ≠ 3
    ∧ (2 : ℕ) ∉ (rateLimitEmissions (1/2 : ℚ)
        ([((0 : ℚ), (0 : ℕ)), (1/10, 1), (2/10, 2)]
          ++ (3/10, 3) :: [])).map Prod.snd := by
  have hst : (rlRun (1/2 : ℚ) rlInit
      [((0 : ℚ), (0 : ℕ)), (1/10, 1), (2/10, 2)]).1
      = ⟨1, 1/2, some 2⟩ := by
    norm_num [rlRun, rlStep, rlInit, max_def]
  refine ⟨by rw [hst], by rw [hst]; norm_num, by decide, by simp, by decide,
    ?_⟩
  exact replaced_pending_frame_never_emitted
    [((0 : ℚ), (0 : ℕ)), (1/10, 1), (2/10, 2)] [] (3/10) 3 2
    (by rw [hst]) (by rw [hst]; norm_num) (by decide) (by simp) (by decide)

/-- C7 (counterexample): frames `0` (at `t = 0`) and `1` (at `t = 0.1`) are
produced within one rate-limit interval (`0.1 < 0.5`), yet both are emitted —
the earlier one at `0`, the later one at `0.5`. The earlier frame is
observed downstream. -/
theorem both_frames_within_interval_emitted :
    rateLimitEmissions (1/2 : ℚ) [((0 : ℚ), (0 : ℕ)), (1/10, 1)]
      = [((0 : ℚ), (0 : ℕ)), ((1/2 : ℚ), 1)]
    ∧ (1/10 : ℚ) - 0 < 1/2
    ∧ (0 : ℕ) ∈ (rateLimitEmissions (1/2 : ℚ)
        [((0 : ℚ), (0 : ℕ)), (1/10, 1)]).map Prod.snd := by
  have hem : rateLimitEmissions (1/2 : ℚ) [((0 : ℚ), (0 : ℕ)), (1/10, 1)]
      = [((0 : ℚ), (0 : ℕ)), ((1/2 : ℚ), 1)] := by
    norm_num [rateLimitEmissions, rlRun, rlStep, rlFinish, rlInit, max_def]
  refine ⟨hem, by norm_num, ?_⟩
  rw [hem]
  simp
